import Mathlib

/-!
Verification development for `hnn.py` (Hamiltonian Neural Network variants).

Modelling conventions (shallow embedding):

* Tensors of floats are modelled as matrices / vectors over `ℚ`; the float
  literal `0.1` becomes `1/10`.
* A batch of states is a `Matrix (Fin b) (Fin n) ℚ`: one row per state.
* The external neural sub-networks (`differentiale_model`, `L_net`, `V_net`,
  `M_net`, `A_net`, `dampNet`) are out of scope of the repository; each is
  modelled as an abstract function bundled with the data that
  `torch.autograd` produces for it (its gradient, or the Jacobian data the
  code requests).  Since `H.sum()` sums over independent batch rows, the
  gradient of the summed output with respect to the input row `r` is the
  bundled per-row gradient evaluated at row `r`.
* Mutation of `self.nfe` is modelled by state passing: every method takes the
  module state and returns the (possibly updated) state together with its
  value.
* `torch.chunk(x, 2, dim=1)` on `Fin (d + d)` columns is modelled with
  `Fin.castAdd` (first half, `q`) and `Fin.natAdd` (second half, `p`);
  `torch.cat(-, dim=1)` of two halves is `Fin.append`.
* Code whose tensor shapes only align for some batch sizes is fallible:
  `HNN_structure_pend.forward` (whose `torch.t(p)` chain executes only at
  batch size 3) returns an `Option`, `none` on the shapes where torch
  raises.  Methods whose value is shape-correct on every batch they
  execute on are modelled totally, with their executing shapes noted in
  the doc comments.
-/

open Matrix

set_option linter.unusedVariables false


/-- External differentiable model (`differentiale_model` in `hnn.py`), an
MLP taking a state of dimension `n` to `k` outputs, together with the
gradient that `torch.autograd.grad(y.sum(), x)` computes for one row:
`gradSum v` is the gradient at `v` of `fun v => ∑ j, val v j`. -/
structure DiffModel (n k : ℕ) where
  val : (Fin n → ℚ) → Fin k → ℚ
  gradSum : (Fin n → ℚ) → Fin n → ℚ

/-- External scalar-output network (the `L_net` / `V_net` MLPs), bundled
with its autograd gradient. -/
structure Net (d : ℕ) where
  val : (Fin d → ℚ) → ℚ
  grad : (Fin d → ℚ) → Fin d → ℚ

/-- The `permutation_tensor` method body, shared verbatim by the three
classes of `hnn.py`.  For `assume_canonical_coords = true` it is
`torch.cat([M[n//2:], -M[:n//2]])` for `M = torch.eye(n)`: row `i` of the
result is `e (n/2 + i)` for `i < n - n/2` and `-e (i - (n - n/2))`
otherwise.  The other branch is the "Levi-Civita" construction: a matrix of
ones, diagonal cleared, rows and columns of even index negated, and entries
above the diagonal negated once more. -/
def permutation_tensor_core (assume_canonical_coords : Bool) (n : ℕ) :
    Matrix (Fin n) (Fin n) ℚ :=
  if assume_canonical_coords then
    Matrix.of fun i j =>
      if (i : ℕ) < n - n / 2 then (if (j : ℕ) = n / 2 + (i : ℕ) then 1 else 0)
      else -(if (j : ℕ) = (i : ℕ) - (n - n / 2) then 1 else 0)
  else
    Matrix.of fun i j =>
      if (i : ℕ) = (j : ℕ) then 0
      else (if (i : ℕ) % 2 = 0 then -1 else 1) * (if (j : ℕ) % 2 = 0 then -1 else 1) *
        (if (i : ℕ) < (j : ℕ) then -1 else 1)

/-- State of a `HNN` module: the attributes set in `HNN.__init__`
(`device` carries no mathematical content and is omitted).  `dampNet` maps a
state row to the damping matrix `D` (one `(n, n)` slice of the `(bs, n, n)`
output). -/
structure HNN (n k : ℕ) where
  baseline : Bool
  differentiale_model : DiffModel n k
  assume_canonical_coords : Bool
  M : Matrix (Fin n) (Fin n) ℚ
  nfe : ℕ
  damp : Bool
  dampNet : (Fin n → ℚ) → Matrix (Fin n) (Fin n) ℚ

/-- `HNN.__init__`: stores the flags and networks, sets
`self.M = self.permutation_tensor(input_dim)` and `self.nfe = 0`. -/
def HNN.init (n k : ℕ) (differentiale_model : DiffModel n k)
    (baseline assume_canonical_coords damp : Bool)
    (dampNet : (Fin n → ℚ) → Matrix (Fin n) (Fin n) ℚ) : HNN n k where
  baseline := baseline
  differentiale_model := differentiale_model
  assume_canonical_coords := assume_canonical_coords
  M := permutation_tensor_core assume_canonical_coords n
  nfe := 0
  damp := damp
  dampNet := dampNet

/-- `HNN.forward`: both branches return `self.differentiale_model(x)`
(the `baseline` test only guards a commented-out assertion). -/
def HNN.forward {n k b : ℕ} (s : HNN n k) (x : Matrix (Fin b) (Fin n) ℚ) :
    HNN n k × Matrix (Fin b) (Fin k) ℚ :=
  if s.baseline then (s, Matrix.of fun r => s.differentiale_model.val (x r))
  else (s, Matrix.of fun r => s.differentiale_model.val (x r))

/-- The tensor `dH = torch.autograd.grad(H.sum(), x, create_graph=True)[0]`
for `H = self.forward(x)`: per batch row `r` it is the bundled gradient of
the summed model output, evaluated at `x r` (rows are independent, so the
gradient of the batch sum with respect to row `r` only sees row `r`). -/
def HNN.dH {n k b : ℕ} (s : HNN n k) (x : Matrix (Fin b) (Fin n) ℚ) :
    Matrix (Fin b) (Fin n) ℚ :=
  Matrix.of fun r => s.differentiale_model.gradSum (x r)

/-- `HNN.time_derivative(t, x)`: increments `nfe`; for `baseline` returns
the raw model output (shape `(b, k)`, the left summand); otherwise returns
`dH @ M.t()`, minus `squeeze(matmul(unsqueeze(dH, 1), D))` when damping is
on (per row: the row vector `dH r` times the matrix `D r`). -/
def HNN.time_derivative {n k b : ℕ} (s : HNN n k) (t : ℚ)
    (x : Matrix (Fin b) (Fin n) ℚ) :
    HNN n k × (Matrix (Fin b) (Fin k) ℚ ⊕ Matrix (Fin b) (Fin n) ℚ) :=
  let s1 : HNN n k := { s with nfe := s.nfe + 1 }
  if s.baseline then
    (s1, Sum.inl (Matrix.of fun r => s.differentiale_model.val (x r)))
  else
    let dH := s.dH x
    let H_vector_field := dH * s.Mᵀ
    if s.damp then
      let D_vector_field : Matrix (Fin b) (Fin n) ℚ :=
        Matrix.of fun r j => ∑ i, dH r i * s.dampNet (x r) i j
      (s1, Sum.inr (H_vector_field - D_vector_field))
    else
      (s1, Sum.inr H_vector_field)

/-- `HNN.Hamiltonian_vector(x)`: the undamped symplectic field `dH @ M.t()`,
without touching `nfe`. -/
def HNN.Hamiltonian_vector {n k b : ℕ} (s : HNN n k)
    (x : Matrix (Fin b) (Fin n) ℚ) : HNN n k × Matrix (Fin b) (Fin n) ℚ :=
  (s, s.dH x * s.Mᵀ)

/-- The `permutation_tensor` method of `HNN`, reading
`self.assume_canonical_coords` and mutating nothing. -/
def HNN.permutation_tensor {n k : ℕ} (s : HNN n k) (m : ℕ) :
    HNN n k × Matrix (Fin m) (Fin m) ℚ :=
  (s, permutation_tensor_core s.assume_canonical_coords m)

/-- The mass term `M_q = L * L + 0.1` of `HNN_structure.forward`, with the
float literal `0.1` read as `1/10`. -/
def massTerm (L : ℚ) : ℚ := L * L + 1 / 10

/-- State of a `HNN_structure` module (attributes of
`HNN_structure.__init__`; `device` omitted).  The input dimension is
`d + d`, split by `torch.chunk` into `q` (first `d` columns) and `p`
(last `d` columns). -/
structure HNN_structure (d : ℕ) where
  L_net : Net d
  V_net : Net d
  assume_canonical_coords : Bool
  M : Matrix (Fin (d + d)) (Fin (d + d)) ℚ
  nfe : ℕ

/-- `HNN_structure.__init__`. -/
def HNN_structure.init (d : ℕ) (L_net V_net : Net d)
    (assume_canonical_coords : Bool) : HNN_structure d where
  L_net := L_net
  V_net := V_net
  assume_canonical_coords := assume_canonical_coords
  M := permutation_tensor_core assume_canonical_coords (d + d)
  nfe := 0

/-- One row of the value of `HNN_structure.forward`:
`H = p * p / M_q / 2 + V_q` with `M_q = L * L + 0.1`.  All operations are
elementwise over the `d` columns of `p`, with the scalars `M_q` and `V_q`
broadcast, so the row of `H` has `d` entries. -/
def HNN_structure.rowEnergy {d : ℕ} (s : HNN_structure d)
    (v : Fin (d + d) → ℚ) : Fin d → ℚ :=
  fun i =>
    v (Fin.natAdd d i) * v (Fin.natAdd d i)
        / massTerm (s.L_net.val fun j => v (Fin.castAdd d j)) / 2
      + s.V_net.val fun j => v (Fin.castAdd d j)

/-- `HNN_structure.forward`, applied row by row to the batch. -/
def HNN_structure.forward {d b : ℕ} (s : HNN_structure d)
    (x : Matrix (Fin b) (Fin (d + d)) ℚ) :
    HNN_structure d × Matrix (Fin b) (Fin d) ℚ :=
  (s, Matrix.of fun r => s.rowEnergy (x r))

/-- The tensor `dH = torch.autograd.grad(H.sum(), x, create_graph=True)[0]`
of `HNN_structure.time_derivative`.  `H.sum()` adds, over each row `r`,
`∑ i, p i * p i / (2 * massTerm L) + d * V(q)` (the broadcast value `V(q)`
occurs once per column).  By calculus its gradient at row `r` is
`p i / massTerm L` in the momentum coordinate `i` and
`d * V' j - (∑ i, p i * p i) * L * L' j / (massTerm L)^2` in the position
coordinate `j`, since `d(massTerm L)/dq j = 2 * L * L' j`. -/
def HNN_structure.dH {d b : ℕ} (s : HNN_structure d)
    (x : Matrix (Fin b) (Fin (d + d)) ℚ) :
    Matrix (Fin b) (Fin (d + d)) ℚ :=
  Matrix.of fun r =>
    Fin.append
      (fun j =>
        (d : ℚ) * s.V_net.grad (fun a => x r (Fin.castAdd d a)) j
          - (∑ i, x r (Fin.natAdd d i) * x r (Fin.natAdd d i))
              * s.L_net.val (fun a => x r (Fin.castAdd d a))
              * s.L_net.grad (fun a => x r (Fin.castAdd d a)) j
              / massTerm (s.L_net.val fun a => x r (Fin.castAdd d a)) ^ 2)
      (fun i =>
        x r (Fin.natAdd d i)
          / massTerm (s.L_net.val fun a => x r (Fin.castAdd d a)))

/-- `HNN_structure.time_derivative(t, x)`: increments `nfe` and returns
`dH @ M.t()`. -/
def HNN_structure.time_derivative {d b : ℕ} (s : HNN_structure d) (t : ℚ)
    (x : Matrix (Fin b) (Fin (d + d)) ℚ) :
    HNN_structure d × Matrix (Fin b) (Fin (d + d)) ℚ :=
  ({ s with nfe := s.nfe + 1 }, s.dH x * s.Mᵀ)

/-- The `permutation_tensor` method of `HNN_structure` (verbatim copy of
the `HNN` one in the source). -/
def HNN_structure.permutation_tensor {d : ℕ} (s : HNN_structure d) (m : ℕ) :
    HNN_structure d × Matrix (Fin m) (Fin m) ℚ :=
  (s, permutation_tensor_core s.assume_canonical_coords m)

/-- External inverse-mass network `M_net` of `HNN_structure_pend`, mapping a
position `q` to a `3 × 3` matrix, bundled with the autograd gradient of its
quadratic form: `gradQuad q p` is the gradient with respect to `q` of
`fun q => pᵀ * (val q) * p` (the spec-side per-row reading used by
`forward_dH`).  `batchVal` is the network applied to a whole `(3, 3)` batch
of positions, in the reading where its output is a single `3 × 3` matrix —
the only reading in which the `torch.matmul` chain of `forward` (line 143)
executes against the `(3, 3)` momentum block. -/
structure MassNet where
  val : (Fin 3 → ℚ) → Matrix (Fin 3) (Fin 3) ℚ
  gradQuad : (Fin 3 → ℚ) → (Fin 3 → ℚ) → Fin 3 → ℚ
  batchVal : Matrix (Fin 3) (Fin 3) ℚ → Matrix (Fin 3) (Fin 3) ℚ

/-- External constraint network `A_net` of `HNN_structure_pend`, mapping a
position `q` to the `3 × c` constraint matrix `A(q)`, bundled with the
Jacobian data that `get_jacobian` computes: `jacMulVec q w` is the Jacobian
with respect to `q` of `fun q => (val q)ᵀ *ᵥ w` for a fixed vector `w`
(rows of the batch are independent, and in `time_derivative` the vector
`w = M_q_inv *ᵥ p` does not depend on `q`). -/
structure ConstraintNet (c : ℕ) where
  val : (Fin 3 → ℚ) → Matrix (Fin 3) (Fin c) ℚ
  jacMulVec : (Fin 3 → ℚ) → (Fin 3 → ℚ) → Matrix (Fin c) (Fin 3) ℚ

/-- State of a `HNN_structure_pend` module (attributes of its `__init__`;
`device` omitted).  The hardcoded inverse mass in `time_derivative` fixes
the pendulum dimension: `q` and `p` each have 3 components, so the input
dimension is `3 + 3`. -/
structure HNN_structure_pend (c : ℕ) where
  M_net : MassNet
  V_net : Net 3
  A_net : ConstraintNet c
  assume_canonical_coords : Bool
  M : Matrix (Fin (3 + 3)) (Fin (3 + 3)) ℚ
  nfe : ℕ

/-- `HNN_structure_pend.__init__`. -/
def HNN_structure_pend.init (c : ℕ) (M_net : MassNet) (V_net : Net 3)
    (A_net : ConstraintNet c) (assume_canonical_coords : Bool) :
    HNN_structure_pend c where
  M_net := M_net
  V_net := V_net
  A_net := A_net
  assume_canonical_coords := assume_canonical_coords
  M := permutation_tensor_core assume_canonical_coords (3 + 3)
  nfe := 0

namespace HNN_structure_pend

/-- The position half `q` of one batch row (`torch.chunk(x, 2, dim=1)`). -/
def qch {b : ℕ} (x : Matrix (Fin b) (Fin (3 + 3)) ℚ) (r : Fin b) :
    Fin 3 → ℚ :=
  fun i => x r (Fin.castAdd 3 i)

/-- The momentum half `p` of one batch row. -/
def pch {b : ℕ} (x : Matrix (Fin b) (Fin (3 + 3)) ℚ) (r : Fin b) :
    Fin 3 → ℚ :=
  fun i => x r (Fin.natAdd 3 i)

/-- `HNN_structure_pend.forward`:
`H = torch.matmul(torch.t(p), torch.matmul(M_q_inv, p)) + V_q` (line 143).
`torch.t(p)` transposes the batch and coordinate dimensions of the
`(b, 3)` momentum block, so the matmul chain only executes when `b = 3`
(otherwise the shapes `(3, 3)` and `(b, 3)` do not multiply and torch
raises — modelled by `none`).  At `b = 3`, with `M_q_inv = M_net(q)` read
as a single `3 × 3` matrix (`batchVal`), the result entry `(i, j)` is
`∑ k, ∑ l, p[k, i] * M[k, l] * p[l, j] + V(q_i)` — the sums run over the
batch rows `k`, `l`, mixing momenta of different states, plus the
broadcast `(3, 1)` potential column `V_q`.  `forward` therefore does not
produce one energy per state. -/
def forward {c b : ℕ} (s : HNN_structure_pend c)
    (x : Matrix (Fin b) (Fin (3 + 3)) ℚ) :
    HNN_structure_pend c × Option (Matrix (Fin 3) (Fin 3) ℚ) :=
  (s,
    if h : b = 3 then
      some (Matrix.of fun i j =>
        (∑ k, ∑ l,
            x (Fin.cast h.symm k) (Fin.natAdd 3 i)
              * s.M_net.batchVal
                  (Matrix.of fun r a => x (Fin.cast h.symm r) (Fin.castAdd 3 a))
                  k l
              * x (Fin.cast h.symm l) (Fin.natAdd 3 j))
          + s.V_net.val fun a => x (Fin.cast h.symm i) (Fin.castAdd 3 a))
    else none)

/-- The hardcoded inverse mass of `HNN_structure_pend.time_derivative`:
`torch.diag_embed(torch.tensor([1.0, 1.0, 3.0]))`.  Note that the line
`M_q_inv = self.M_net(q)` is commented out in the source, so
`time_derivative` does not use `M_net`. -/
def M_q_inv_hard : Matrix (Fin 3) (Fin 3) ℚ :=
  Matrix.diagonal fun i => if (i : ℕ) = 2 then 3 else 1

/-- Position half of the autograd gradient `dH` computed in
`time_derivative`: the Hamiltonian differentiated there is
`pᵀ * M_q_inv_hard * p + V_net(q)`, whose `q`-gradient is the gradient of
`V_net` (the hardcoded inverse mass does not depend on `q`). -/
def dHdq {c b : ℕ} (s : HNN_structure_pend c)
    (x : Matrix (Fin b) (Fin (3 + 3)) ℚ) (r : Fin b) : Fin 3 → ℚ :=
  s.V_net.grad (qch x r)

/-- Momentum half of the autograd gradient `dH` computed in
`time_derivative`: the gradient of the quadratic form `pᵀ * M * p` is
`(M + Mᵀ) *ᵥ p`. -/
def dHdp {c b : ℕ} (s : HNN_structure_pend c)
    (x : Matrix (Fin b) (Fin (3 + 3)) ℚ) (r : Fin b) : Fin 3 → ℚ :=
  fun i => ∑ j, (M_q_inv_hard i j + M_q_inv_hard j i) * pch x r j

/-- The tensor `dH = torch.autograd.grad(H.sum(), x, create_graph=True)[0]`
of `time_derivative`, with `H` the hardcoded Hamiltonian of line 158. -/
def dH {c b : ℕ} (s : HNN_structure_pend c)
    (x : Matrix (Fin b) (Fin (3 + 3)) ℚ) :
    Matrix (Fin b) (Fin (3 + 3)) ℚ :=
  Matrix.of fun r => Fin.append (s.dHdq x r) (s.dHdp x r)

/-- `H_vector_field = torch.matmul(dH, self.M.t())`. -/
def H_vector_field {c b : ℕ} (s : HNN_structure_pend c)
    (x : Matrix (Fin b) (Fin (3 + 3)) ℚ) :
    Matrix (Fin b) (Fin (3 + 3)) ℚ :=
  s.dH x * s.Mᵀ

/-- `A_q = self.A_net(q)` for one batch row. -/
def A_q {c b : ℕ} (s : HNN_structure_pend c)
    (x : Matrix (Fin b) (Fin (3 + 3)) ℚ) (r : Fin b) :
    Matrix (Fin 3) (Fin c) ℚ :=
  s.A_net.val (qch x r)

/-- `dA_T_M_inv_p_dq = self.get_jacobian(q, A_T_M_inv_p)`: the Jacobian
with respect to `q` of `A(q)ᵀ *ᵥ (M_q_inv *ᵥ p)`, delivered by the bundled
Jacobian data of `A_net` at the fixed vector `M_q_inv_hard *ᵥ p`.
`get_jacobian` squeezes the `(b, c, 1)` input to `(b, c)` and iterates over
`len(output.sum(0))`, so it executes only for `b ≥ 2` and `c ≥ 2` (a
squeezed singleton dimension leaves a tensor on which `len` raises); on
those executing shapes batch rows are independent and the per-row Jacobian
below is what it computes.  The Lean definition extends it totally. -/
def dA_T_M_inv_p_dq {c b : ℕ} (s : HNN_structure_pend c)
    (x : Matrix (Fin b) (Fin (3 + 3)) ℚ) (r : Fin b) :
    Matrix (Fin c) (Fin 3) ℚ :=
  s.A_net.jacMulVec (qch x r) (M_q_inv_hard *ᵥ pch x r)

/-- The right-hand side of the Lagrange-multiplier system:
`RHS = matmul(A_T_q, matmul(M_q_inv, dHdq)) - matmul(dA_T_M_inv_p_dq, dHdp)`. -/
def RHS {c b : ℕ} (s : HNN_structure_pend c)
    (x : Matrix (Fin b) (Fin (3 + 3)) ℚ) (r : Fin b) : Fin c → ℚ :=
  (A_q s x r)ᵀ *ᵥ (M_q_inv_hard *ᵥ s.dHdq x r)
    - dA_T_M_inv_p_dq s x r *ᵥ s.dHdp x r

/-- The left-hand-side matrix of the Lagrange-multiplier system as the code
builds it: `LHS = matmul(A_T_q, matmul(M_q_inv, A_q))` followed by
`LHS = LHS + torch.ones_like(LHS) * 0.1`, which adds `0.1` to every entry. -/
def LHS {c b : ℕ} (s : HNN_structure_pend c)
    (x : Matrix (Fin b) (Fin (3 + 3)) ℚ) (r : Fin b) :
    Matrix (Fin c) (Fin c) ℚ :=
  (A_q s x r)ᵀ * M_q_inv_hard * A_q s x r + Matrix.of fun _ _ => 1 / 10

/-- `torch.inverse`, modelled by the adjugate formula (the true inverse
whenever the determinant is nonzero). -/
def matInv {c : ℕ} (A : Matrix (Fin c) (Fin c) ℚ) :
    Matrix (Fin c) (Fin c) ℚ :=
  A.det⁻¹ • A.adjugate

/-- `lambd = torch.matmul(torch.inverse(LHS), RHS)`. -/
def lambd {c b : ℕ} (s : HNN_structure_pend c)
    (x : Matrix (Fin b) (Fin (3 + 3)) ℚ) (r : Fin b) : Fin c → ℚ :=
  matInv (LHS s x r) *ᵥ RHS s x r

/-- `con_force = torch.squeeze(torch.matmul(A_q, lambd))` for one row:
the squeeze of the `(b, 3, 1)` product yields the `(b, 3)` matrix read
here when `b ≥ 2` (at `b = 1` it collapses to a 1-D tensor and the
subsequent `torch.cat(..., dim=1)` raises; the Lean definition models the
executing shapes and extends totally). -/
def con_force {c b : ℕ} (s : HNN_structure_pend c)
    (x : Matrix (Fin b) (Fin (3 + 3)) ℚ) (r : Fin b) : Fin 3 → ℚ :=
  A_q s x r *ᵥ lambd s x r

/-- `con_force_vector_field = torch.cat((zeros_like(con_force), con_force),
dim=1)`: zero on the position half, the constraint force on the momentum
half (`dim=1` concatenation presupposes the 2-D `(b, 3)` shape of
`con_force`, i.e. the executing shapes `b ≥ 2`). -/
def con_force_vector_field {c b : ℕ} (s : HNN_structure_pend c)
    (x : Matrix (Fin b) (Fin (3 + 3)) ℚ) :
    Matrix (Fin b) (Fin (3 + 3)) ℚ :=
  Matrix.of fun r => Fin.append (fun _ => 0) (con_force s x r)

/-- `HNN_structure_pend.time_derivative(t, x)`: increments `nfe` and
returns `H_vector_field + con_force_vector_field`. -/
def time_derivative {c b : ℕ} (s : HNN_structure_pend c) (t : ℚ)
    (x : Matrix (Fin b) (Fin (3 + 3)) ℚ) :
    HNN_structure_pend c × Matrix (Fin b) (Fin (3 + 3)) ℚ :=
  ({ s with nfe := s.nfe + 1 },
    H_vector_field s x + con_force_vector_field s x)

/-- The `permutation_tensor` method of `HNN_structure_pend` (verbatim copy
of the `HNN` one in the source). -/
def permutation_tensor {c : ℕ} (s : HNN_structure_pend c) (m : ℕ) :
    HNN_structure_pend c × Matrix (Fin m) (Fin m) ℚ :=
  (s, permutation_tensor_core s.assume_canonical_coords m)

end HNN_structure_pend

/-- A concrete `HNN_structure_pend` instance whose inverse-mass network is
the constant identity-matrix network (zero `q`-gradient of its quadratic
form) and whose other networks are constantly zero. -/
def pendMixA : HNN_structure_pend 1 where
  M_net := ⟨fun _ => 1, fun _ _ _ => 0, fun _ => 1⟩
  V_net := ⟨fun _ => 0, fun _ _ => 0⟩
  A_net := ⟨fun _ => 0, fun _ _ => 0⟩
  assume_canonical_coords := true
  M := permutation_tensor_core true (3 + 3)
  nfe := 0

/-- A batch of three states, all zero except the first momentum coordinate
of state 1 (row 1, column 3). -/
def pendMixX : Matrix (Fin 3) (Fin (3 + 3)) ℚ :=
  Matrix.of fun r j => if (r : ℕ) = 1 ∧ (j : ℕ) = 3 then 1 else 0

/-- The all-zero batch of three states. -/
def pendMixY : Matrix (Fin 3) (Fin (3 + 3)) ℚ := 0

/-- A concrete `HNN_structure` instance with input dimension 4
(`d = 2`), constant networks `L = 1` and `V = 0`. -/
def structTwoDimExample : HNN_structure 2 where
  L_net := ⟨fun _ => 1, fun _ _ => 0⟩
  V_net := ⟨fun _ => 0, fun _ _ => 0⟩
  assume_canonical_coords := true
  M := permutation_tensor_core true (2 + 2)
  nfe := 0

/-- A one-row batch of 4-dimensional states: `q = (0, 1)`, `p = (2, 3)`. -/
def structFourState : Matrix (Fin 1) (Fin (2 + 2)) ℚ :=
  Matrix.of fun _ j => (j : ℕ)

/-- C1: for an `HNN` constructed with `baseline = False` and `damp = False`,
`time_derivative(t, x)` returns exactly the gradient of the summed predicted
Hamiltonian `forward(x)` multiplied on the right by the transpose of the
matrix built by `permutation_tensor`; moreover `forward` is the raw model
output, so `HNN.dH` is the gradient of `forward(x).sum()` with respect to
`x`. -/
theorem hnn_time_derivative_is_symplectic_gradient (n k b : ℕ)
    (m : DiffModel n k) (dn : (Fin n → ℚ) → Matrix (Fin n) (Fin n) ℚ)
    (t : ℚ) (x : Matrix (Fin b) (Fin n) ℚ) :
    ((HNN.init n k m false true false dn).time_derivative t x).2
        = Sum.inr ((HNN.init n k m false true false dn).dH x *
            (((HNN.init n k m false true false dn).permutation_tensor n).2)ᵀ)
      ∧ ((HNN.init n k m false true false dn).forward x).2
        = Matrix.of fun r => m.val (x r) :=
  ⟨rfl, rfl⟩

/-- C4: `HNN_structure.forward` decomposes the Hamiltonian into a kinetic
term `p * p / (2 * (L_net(q) * L_net(q) + 0.1))` (depending on `p` only
through `p * p` and on `q` only through the mass term) plus a potential
term `V_net(q)` depending only on `q`. -/
theorem hnn_structure_forward_kinetic_potential (d b : ℕ)
    (s : HNN_structure d) (x : Matrix (Fin b) (Fin (d + d)) ℚ)
    (r : Fin b) (i : Fin d) :
    ((s.forward x).2) r i
      = x r (Fin.natAdd d i) * x r (Fin.natAdd d i)
          / (2 * (s.L_net.val (fun j => x r (Fin.castAdd d j))
                    * s.L_net.val (fun j => x r (Fin.castAdd d j)) + 1 / 10))
        + s.V_net.val (fun j => x r (Fin.castAdd d j)) := by
  show x r (Fin.natAdd d i) * x r (Fin.natAdd d i)
        / massTerm (s.L_net.val fun j => x r (Fin.castAdd d j)) / 2 + _ = _
  rw [div_div, massTerm]
  ring

/-- C9: the mass term `M_q = L * L + 0.1` computed in
`HNN_structure.forward` is at least `0.1`, hence strictly positive and
nonzero, for every output `L` of `L_net`: the division defining the
Hamiltonian never divides by zero. -/
theorem hnn_structure_mass_term_positive (L : ℚ) :
    1 / 10 ≤ massTerm L ∧ 0 < massTerm L ∧ massTerm L ≠ 0 := by
  have h : 0 ≤ L * L := mul_self_nonneg L
  have h1 : 1 / 10 ≤ massTerm L := by rw [massTerm]; linarith
  have h2 : 0 < massTerm L := lt_of_lt_of_le (by norm_num) h1
  exact ⟨h1, h2, ne_of_gt h2⟩

/-- C10: the constraint-force vector field of
`HNN_structure_pend.time_derivative` vanishes on the position half of the
state, so the position dynamics returned equal those of the unconstrained
Hamiltonian vector field. -/
theorem pend_constraint_force_preserves_position_dynamics (c b : ℕ)
    (s : HNN_structure_pend c) (t : ℚ)
    (x : Matrix (Fin b) (Fin (3 + 3)) ℚ) (r : Fin b) (i : Fin 3) :
    s.con_force_vector_field x r (Fin.castAdd 3 i) = 0
    ∧ (s.time_derivative t x).2 r (Fin.castAdd 3 i)
        = s.H_vector_field x r (Fin.castAdd 3 i) := by
  have hz : s.con_force_vector_field x r (Fin.castAdd 3 i) = 0 := by
    simp [HNN_structure_pend.con_force_vector_field, Fin.append_left]
  refine ⟨hz, ?_⟩
  show (s.H_vector_field x + s.con_force_vector_field x) r (Fin.castAdd 3 i) = _
  rw [Matrix.add_apply, hz, add_zero]

/-- C3, counterexample: with input dimension 4, `HNN_structure.forward`
returns two different values for a single state (the elementwise `p * p`
produces one entry per momentum coordinate), so it does not yield one
Hamiltonian value per state. -/
theorem hnn_structure_forward_not_single_valued :
    ((structTwoDimExample.forward structFourState).2) 0 0
      ≠ ((structTwoDimExample.forward structFourState).2) 0 1 := by
  simp only [HNN_structure.forward, HNN_structure.rowEnergy, Matrix.of_apply]
  norm_num [structTwoDimExample, structFourState, massTerm, Fin.natAdd]

/-- C3 (amended): `HNN.forward` with a one-output model yields exactly one
energy value per state, a function of that state's row only.
`HNN_structure.forward` yields `input_dim / 2` values per state — one per
momentum coordinate — a single scalar only when `input_dim = 2`.
`HNN_structure_pend.forward` yields no per-state energy at all: its
`torch.t(p)` transposes the batch and coordinate dimensions, so the matmul
chain executes only at batch size 3 (at batch size 2 the value is `none`),
and there an output entry mixes momenta of different states: for two
batches agreeing on state 0 but differing in state 1's momentum, the
energies differ. -/
theorem forward_values_per_state :
    (∀ (n b : ℕ) (s : HNN n 1) (x : Matrix (Fin b) (Fin n) ℚ)
        (r : Fin b) (i : Fin 1),
        ((s.forward x).2) r i = s.differentiale_model.val (x r) 0)
    ∧ (∀ (d b : ℕ) (s : HNN_structure d)
        (x : Matrix (Fin b) (Fin (d + d)) ℚ) (r : Fin b) (i : Fin d),
        ((s.forward x).2) r i = s.rowEnergy (x r) i)
    ∧ (∀ (c : ℕ) (s : HNN_structure_pend c)
        (x : Matrix (Fin 2) (Fin (3 + 3)) ℚ), ((s.forward x).2) = none)
    ∧ pendMixX 0 = pendMixY 0
    ∧ (pendMixA.forward pendMixX).2 ≠ (pendMixA.forward pendMixY).2 := by
  refine ⟨?_, fun d b s x r i => rfl, fun c s x => rfl, ?_, ?_⟩
  · intro n b s x r i
    obtain rfl := Subsingleton.elim i 0
    by_cases hb : s.baseline <;> simp [HNN.forward, hb]
  · funext j
    simp [pendMixX, pendMixY]
  · intro h
    have h2 : Option.map (fun H => H 0 0) ((pendMixA.forward pendMixX).2)
        = Option.map (fun H => H 0 0) ((pendMixA.forward pendMixY).2) := by
      rw [h]
    simp [HNN_structure_pend.forward, pendMixA, pendMixX, pendMixY,
      Fin.sum_univ_three, Matrix.one_apply, Fin.coe_cast,
      Fin.coe_natAdd, Fin.coe_castAdd] at h2

/-- C7: every `time_derivative` ignores its time argument `t`: for any two
times the returned state and vector field agree, for `HNN` in every
configuration of `baseline` and `damp`, for `HNN_structure`, and for
`HNN_structure_pend`. -/
theorem time_derivative_is_time_independent :
    (∀ (n k b : ℕ) (s : HNN n k) (t1 t2 : ℚ)
        (x : Matrix (Fin b) (Fin n) ℚ),
        s.time_derivative t1 x = s.time_derivative t2 x)
    ∧ (∀ (d b : ℕ) (s : HNN_structure d) (t1 t2 : ℚ)
        (x : Matrix (Fin b) (Fin (d + d)) ℚ),
        s.time_derivative t1 x = s.time_derivative t2 x)
    ∧ (∀ (c b : ℕ) (s : HNN_structure_pend c) (t1 t2 : ℚ)
        (x : Matrix (Fin b) (Fin (3 + 3)) ℚ),
        s.time_derivative t1 x = s.time_derivative t2 x) :=
  ⟨fun _ _ _ _ _ _ _ => rfl, fun _ _ _ _ _ _ => rfl,
    fun _ _ _ _ _ _ => rfl⟩

/-- C8: every `time_derivative` call increments `nfe` by exactly one and
modifies no other attribute (the returned state is the input state with
only `nfe` replaced), while `forward`, `Hamiltonian_vector` and
`permutation_tensor` leave the state — in particular `nfe` — unchanged. -/
theorem methods_touch_only_nfe :
    (∀ (n k b : ℕ) (s : HNN n k) (t : ℚ) (x : Matrix (Fin b) (Fin n) ℚ),
        ((s.time_derivative t x).1).nfe = s.nfe + 1
        ∧ (s.time_derivative t x).1 = { s with nfe := s.nfe + 1 })
    ∧ (∀ (n k b : ℕ) (s : HNN n k) (x : Matrix (Fin b) (Fin n) ℚ),
        (s.forward x).1 = s)
    ∧ (∀ (n k b : ℕ) (s : HNN n k) (x : Matrix (Fin b) (Fin n) ℚ),
        (s.Hamiltonian_vector x).1 = s)
    ∧ (∀ (n k m : ℕ) (s : HNN n k), (s.permutation_tensor m).1 = s)
    ∧ (∀ (d b : ℕ) (s : HNN_structure d) (t : ℚ)
        (x : Matrix (Fin b) (Fin (d + d)) ℚ),
        ((s.time_derivative t x).1).nfe = s.nfe + 1
        ∧ (s.time_derivative t x).1 = { s with nfe := s.nfe + 1 })
    ∧ (∀ (d b : ℕ) (s : HNN_structure d)
        (x : Matrix (Fin b) (Fin (d + d)) ℚ), (s.forward x).1 = s)
    ∧ (∀ (d m : ℕ) (s : HNN_structure d), (s.permutation_tensor m).1 = s)
    ∧ (∀ (c b : ℕ) (s : HNN_structure_pend c) (t : ℚ)
        (x : Matrix (Fin b) (Fin (3 + 3)) ℚ),
        ((s.time_derivative t x).1).nfe = s.nfe + 1
        ∧ (s.time_derivative t x).1 = { s with nfe := s.nfe + 1 })
    ∧ (∀ (c b : ℕ) (s : HNN_structure_pend c)
        (x : Matrix (Fin b) (Fin (3 + 3)) ℚ), (s.forward x).1 = s)
    ∧ (∀ (c m : ℕ) (s : HNN_structure_pend c),
        (s.permutation_tensor m).1 = s) := by
  refine ⟨fun n k b s t x => ?_, fun n k b s x => ?_, fun n k b s x => rfl,
    fun n k m s => rfl, fun d b s t x => ⟨rfl, rfl⟩, fun d b s x => rfl,
    fun d m s => rfl, fun c b s t x => ⟨rfl, rfl⟩, fun c b s x => rfl,
    fun c m s => rfl⟩
  · obtain ⟨bl, md, ac, M0, nf, dp, dnet⟩ := s
    exact ⟨by cases bl <;> cases dp <;> rfl, by cases bl <;> cases dp <;> rfl⟩
  · obtain ⟨bl, md, ac, M0, nf, dp, dnet⟩ := s
    cases bl <;> rfl

/-- Closed form of the canonical branch of `permutation_tensor_core` at even
size `d + d`: row `i < d` is the unit row vector at column `d + i`, row
`i ≥ d` is minus the unit row vector at column `i - d`. -/
theorem perm_core_apply (d : ℕ) (i j : Fin (d + d)) :
    permutation_tensor_core true (d + d) i j
      = if (i : ℕ) < d then (if (j : ℕ) = d + (i : ℕ) then 1 else 0)
        else (if (j : ℕ) + d = (i : ℕ) then -1 else 0) := by
  have h2 : (d + d) / 2 = d := by omega
  have h3 : d + d - (d + d) / 2 = d := by omega
  simp only [permutation_tensor_core, if_true, Matrix.of_apply, h2, h3]
  split_ifs <;> first | rfl | (exfalso; omega)

/-- Upper-left block of the canonical permutation tensor: zero. -/
theorem perm_core_block_ul (d : ℕ) (i j : Fin d) :
    permutation_tensor_core true (d + d) (Fin.castAdd d i) (Fin.castAdd d j)
      = 0 := by
  rw [perm_core_apply]
  simp only [Fin.coe_castAdd]
  rw [if_pos i.isLt, if_neg (by omega : ¬((j : ℕ) = d + (i : ℕ)))]

/-- Upper-right block of the canonical permutation tensor: the identity. -/
theorem perm_core_block_ur (d : ℕ) (i j : Fin d) :
    permutation_tensor_core true (d + d) (Fin.castAdd d i) (Fin.natAdd d j)
      = if i = j then 1 else 0 := by
  rw [perm_core_apply]
  simp only [Fin.coe_castAdd, Fin.coe_natAdd]
  rw [if_pos i.isLt]
  rcases eq_or_ne i j with rfl | hne
  · rw [if_pos rfl, if_pos rfl]
  · have hv : (j : ℕ) ≠ (i : ℕ) := fun h => hne (Fin.ext h).symm
    rw [if_neg (by omega : ¬(d + (j : ℕ) = d + (i : ℕ))), if_neg hne]

/-- Lower-left block of the canonical permutation tensor: minus the
identity. -/
theorem perm_core_block_ll (d : ℕ) (i j : Fin d) :
    permutation_tensor_core true (d + d) (Fin.natAdd d i) (Fin.castAdd d j)
      = if i = j then -1 else 0 := by
  rw [perm_core_apply]
  simp only [Fin.coe_castAdd, Fin.coe_natAdd]
  rw [if_neg (by omega : ¬(d + (i : ℕ) < d))]
  rcases eq_or_ne i j with rfl | hne
  · rw [if_pos (by omega : (i : ℕ) + d = d + (i : ℕ)), if_pos rfl]
  · have hv : (j : ℕ) ≠ (i : ℕ) := fun h => hne (Fin.ext h).symm
    rw [if_neg (by omega : ¬((j : ℕ) + d = d + (i : ℕ))), if_neg hne]

/-- Lower-right block of the canonical permutation tensor: zero. -/
theorem perm_core_block_lr (d : ℕ) (i j : Fin d) :
    permutation_tensor_core true (d + d) (Fin.natAdd d i) (Fin.natAdd d j)
      = 0 := by
  rw [perm_core_apply]
  simp only [Fin.coe_natAdd]
  rw [if_neg (by omega : ¬(d + (i : ℕ) < d)),
    if_neg (by omega : ¬(d + (j : ℕ) + d = d + (i : ℕ)))]

/-- The canonical branch of `permutation_tensor_core` at even size is the
block matrix `[[0, I], [-I, 0]]`, reindexed from `Fin d ⊕ Fin d`. -/
theorem perm_core_eq_fromBlocks (d : ℕ) :
    permutation_tensor_core true (d + d)
      = Matrix.submatrix
          (Matrix.fromBlocks (0 : Matrix (Fin d) (Fin d) ℚ) 1 (-1) 0)
          finSumFinEquiv.symm finSumFinEquiv.symm := by
  ext i j
  rw [Matrix.submatrix_apply]
  induction i using Fin.addCases with
  | left a =>
    rw [finSumFinEquiv_symm_apply_castAdd]
    induction j using Fin.addCases with
    | left b =>
      rw [perm_core_block_ul, finSumFinEquiv_symm_apply_castAdd,
        Matrix.fromBlocks_apply₁₁, Matrix.zero_apply]
    | right b =>
      rw [perm_core_block_ur, finSumFinEquiv_symm_apply_natAdd,
        Matrix.fromBlocks_apply₁₂, Matrix.one_apply]
  | right a =>
    rw [finSumFinEquiv_symm_apply_natAdd]
    induction j using Fin.addCases with
    | left b =>
      rw [perm_core_block_ll, finSumFinEquiv_symm_apply_castAdd,
        Matrix.fromBlocks_apply₂₁, Matrix.neg_apply, Matrix.one_apply]
      rcases eq_or_ne a b with rfl | hne
      · rw [if_pos rfl, if_pos rfl]
      · rw [if_neg hne, if_neg hne, neg_zero]
    | right b =>
      rw [perm_core_block_lr, finSumFinEquiv_symm_apply_natAdd,
        Matrix.fromBlocks_apply₂₂, Matrix.zero_apply]

/-- The canonical permutation tensor is antisymmetric: `Mᵀ = -M`. -/
theorem perm_core_transpose_neg (d : ℕ) :
    (permutation_tensor_core true (d + d))ᵀ
      = -permutation_tensor_core true (d + d) := by
  have hBt : (Matrix.fromBlocks (0 : Matrix (Fin d) (Fin d) ℚ)
        (1 : Matrix (Fin d) (Fin d) ℚ) (-1 : Matrix (Fin d) (Fin d) ℚ)
        (0 : Matrix (Fin d) (Fin d) ℚ))ᵀ
      = -Matrix.fromBlocks (0 : Matrix (Fin d) (Fin d) ℚ)
          (1 : Matrix (Fin d) (Fin d) ℚ) (-1 : Matrix (Fin d) (Fin d) ℚ)
          (0 : Matrix (Fin d) (Fin d) ℚ) := by
    simp [Matrix.fromBlocks_transpose, Matrix.fromBlocks_neg]
  rw [perm_core_eq_fromBlocks, Matrix.transpose_submatrix, hBt]
  rfl

/-- The canonical permutation tensor is orthogonal: `M * Mᵀ = 1`. -/
theorem perm_core_mul_transpose (d : ℕ) :
    permutation_tensor_core true (d + d)
        * (permutation_tensor_core true (d + d))ᵀ = 1 := by
  rw [perm_core_eq_fromBlocks, Matrix.transpose_submatrix,
    Matrix.submatrix_mul_equiv]
  have hB : Matrix.fromBlocks (0 : Matrix (Fin d) (Fin d) ℚ)
        (1 : Matrix (Fin d) (Fin d) ℚ) (-1 : Matrix (Fin d) (Fin d) ℚ)
        (0 : Matrix (Fin d) (Fin d) ℚ)
      * (Matrix.fromBlocks (0 : Matrix (Fin d) (Fin d) ℚ)
          (1 : Matrix (Fin d) (Fin d) ℚ) (-1 : Matrix (Fin d) (Fin d) ℚ)
          (0 : Matrix (Fin d) (Fin d) ℚ))ᵀ = 1 := by
    simp [Matrix.fromBlocks_transpose, Matrix.fromBlocks_multiply,
      ← Matrix.fromBlocks_one]
  rw [hB, Matrix.submatrix_one_equiv]

/-- Every entry of the canonical permutation tensor is `0`, `1` or `-1`. -/
theorem perm_core_entries (d : ℕ) (i j : Fin (d + d)) :
    permutation_tensor_core true (d + d) i j = 0
    ∨ permutation_tensor_core true (d + d) i j = 1
    ∨ permutation_tensor_core true (d + d) i j = -1 := by
  rw [perm_core_apply]
  split_ifs <;> simp

/-- Each row of the canonical permutation tensor has exactly one nonzero
entry. -/
theorem perm_core_row_nonzero (d : ℕ) (i : Fin (d + d)) :
    ∃! j, permutation_tensor_core true (d + d) i j ≠ 0 := by
  induction i using Fin.addCases with
  | left a =>
    refine ⟨Fin.natAdd d a, ?_, ?_⟩
    · show permutation_tensor_core true (d + d)
          (Fin.castAdd d a) (Fin.natAdd d a) ≠ 0
      rw [perm_core_block_ur, if_pos rfl]
      norm_num
    · intro y hy
      induction y using Fin.addCases with
      | left b => simp only [perm_core_block_ul] at hy; exact absurd rfl hy
      | right b =>
        simp only [perm_core_block_ur] at hy
        rcases eq_or_ne a b with rfl | hne
        · rfl
        · rw [if_neg hne] at hy; exact absurd rfl hy
  | right a =>
    refine ⟨Fin.castAdd d a, ?_, ?_⟩
    · show permutation_tensor_core true (d + d)
          (Fin.natAdd d a) (Fin.castAdd d a) ≠ 0
      rw [perm_core_block_ll, if_pos rfl]
      norm_num
    · intro y hy
      induction y using Fin.addCases with
      | left b =>
        simp only [perm_core_block_ll] at hy
        rcases eq_or_ne a b with rfl | hne
        · rfl
        · rw [if_neg hne] at hy; exact absurd rfl hy
      | right b => simp only [perm_core_block_lr] at hy; exact absurd rfl hy

/-- Each column of the canonical permutation tensor has exactly one nonzero
entry. -/
theorem perm_core_col_nonzero (d : ℕ) (j : Fin (d + d)) :
    ∃! i, permutation_tensor_core true (d + d) i j ≠ 0 := by
  induction j using Fin.addCases with
  | left a =>
    refine ⟨Fin.natAdd d a, ?_, ?_⟩
    · show permutation_tensor_core true (d + d)
          (Fin.natAdd d a) (Fin.castAdd d a) ≠ 0
      rw [perm_core_block_ll, if_pos rfl]
      norm_num
    · intro y hy
      induction y using Fin.addCases with
      | left b => simp only [perm_core_block_ul] at hy; exact absurd rfl hy
      | right b =>
        simp only [perm_core_block_ll] at hy
        rcases eq_or_ne b a with rfl | hne
        · rfl
        · rw [if_neg hne] at hy; exact absurd rfl hy
  | right a =>
    refine ⟨Fin.castAdd d a, ?_, ?_⟩
    · show permutation_tensor_core true (d + d)
          (Fin.castAdd d a) (Fin.natAdd d a) ≠ 0
      rw [perm_core_block_ur, if_pos rfl]
      norm_num
    · intro y hy
      induction y using Fin.addCases with
      | left b =>
        simp only [perm_core_block_ur] at hy
        rcases eq_or_ne b a with rfl | hne
        · rfl
        · rw [if_neg hne] at hy; exact absurd rfl hy
      | right b => simp only [perm_core_block_lr] at hy; exact absurd rfl hy

/-- C6: for every even input dimension `d + d`, `permutation_tensor` with
`assume_canonical_coords = True` returns the canonical symplectic matrix
`[[0, I], [-I, 0]]`: its four `d * d` blocks are `0`, `I`, `-I`, `0`; it is
a signed permutation matrix (entries in `{0, 1, -1}` with exactly one
nonzero entry in each row and in each column); and it satisfies `Mᵀ = -M`
and `M * Mᵀ = I`. -/
theorem permutation_tensor_canonical_symplectic (d : ℕ) :
    (∀ i j : Fin d,
        permutation_tensor_core true (d + d)
            (Fin.castAdd d i) (Fin.castAdd d j) = 0
        ∧ permutation_tensor_core true (d + d)
            (Fin.castAdd d i) (Fin.natAdd d j) = (if i = j then 1 else 0)
        ∧ permutation_tensor_core true (d + d)
            (Fin.natAdd d i) (Fin.castAdd d j) = (if i = j then -1 else 0)
        ∧ permutation_tensor_core true (d + d)
            (Fin.natAdd d i) (Fin.natAdd d j) = 0)
    ∧ (permutation_tensor_core true (d + d))ᵀ
        = -permutation_tensor_core true (d + d)
    ∧ permutation_tensor_core true (d + d)
        * (permutation_tensor_core true (d + d))ᵀ = 1
    ∧ (∀ i j : Fin (d + d),
        permutation_tensor_core true (d + d) i j = 0
        ∨ permutation_tensor_core true (d + d) i j = 1
        ∨ permutation_tensor_core true (d + d) i j = -1)
    ∧ (∀ i : Fin (d + d), ∃! j, permutation_tensor_core true (d + d) i j ≠ 0)
    ∧ (∀ j : Fin (d + d), ∃! i, permutation_tensor_core true (d + d) i j ≠ 0) :=
  ⟨fun i j => ⟨perm_core_block_ul d i j, perm_core_block_ur d i j,
      perm_core_block_ll d i j, perm_core_block_lr d i j⟩,
    perm_core_transpose_neg d, perm_core_mul_transpose d,
    perm_core_entries d, perm_core_row_nonzero d, perm_core_col_nonzero d⟩

